import Mathlib

/-!
# Verification of the ente CLI upload/watch engine

Shallow embedding of the Go sources of the `dhcgn/ente` CLI
(streaming encryption pipeline, S3 uploader, deduplication store,
watcher and duplicate handler), with theorems settling the frozen
claims about the natural-language specification.

Byte strings are modelled as `List ℕ` (each entry one byte), machine
integers as `ℕ`/`ℤ`.  Randomness (fresh nonces, fresh file keys) is
passed in as explicit parameters.  The `cli/internal/crypto` package is
not part of the provided sources; the primitives it exports
(`NewEncryptor`/`Push`, `SecretBoxSeal`/`SecretBoxOpen`) are modelled
from the spec, as documented on each such definition.
-/

namespace Ente

/-! ## Constants (cli/pkg/uploader/encryptor.go, thumbnail.go, config.go) -/

/-- `encryptionBufferSize = 4 * 1024 * 1024` (4 MiB read buffers). -/
def encryptionBufferSize : ℕ := 4 * 1024 * 1024

/-- `keySize = 32` (ChaCha20-Poly1305 key size). -/
def keySize : ℕ := 32

/-- `nonceSize = 24` (SecretBox nonce size). -/
def nonceSize : ℕ := 24

/-- `multipartPartSize = 20 * 1024 * 1024` (20 MiB per multipart part). -/
def multipartPartSize : ℕ := 20 * 1024 * 1024

/-- `DefaultMultipartMin = 20 * 1024 * 1024`: minimum encrypted size for
multipart upload.  Both call sites (`upload` command and watch mode) set
`config.MultipartMin` to this constant. -/
def DefaultMultipartMin : ℕ := 20 * 1024 * 1024

/-- `DefaultAlbumName = "CLI Uploads"`. -/
def DefaultAlbumName : String := "CLI Uploads"

/-- Modelled from the spec: the stream-cipher chunk tags of
`cli/internal/crypto` (not under the provided sources).  `MESSAGE = 0`. -/
def TagMessage : ℕ := 0

/-- Modelled from the spec: `FINAL = 3` (libsodium secretstream final tag). -/
def TagFinal : ℕ := 3

/-! ## The chunked stream encryptor interface

Modelled from the spec: `crypto.NewEncryptor(key)` yields an encryptor
and a 24-byte header; `Push(plaintext, tag)` yields
`len(plaintext) + 17` bytes of ciphertext.  The cipher itself is not in
the provided sources, so `EncryptFile` below is parameterised over any
stateful pusher; the spec laws (`PushLenSpec`, `HeaderLenSpec`) are
hypotheses of the theorems that need them. -/

structure StreamEncryptor (σ : Type) where
  initState : σ
  header : List ℕ
  push : σ → List ℕ → ℕ → List ℕ × σ

/-- Spec law: every pushed chunk of `p` plaintext bytes yields `p + 17`
ciphertext bytes (1 tag byte + 16 authenticator bytes of overhead). -/
def PushLenSpec {σ : Type} (E : StreamEncryptor σ) : Prop :=
  ∀ (s : σ) (m : List ℕ) (t : ℕ), ((E.push s m t).1).length = m.length + 17

/-- Spec law: the stream header is 24 bytes. -/
def HeaderLenSpec {σ : Type} (E : StreamEncryptor σ) : Prop :=
  E.header.length = 24

/-! ## EncryptFile (cli/pkg/uploader/encryptor.go, current revision)

The Go loop reads the input through `bufio.Reader` in buffers of
exactly 4 MiB.  For a regular file each read returns
`min(remaining, 4 MiB)` bytes; `os.File` reports `io.EOF` on a separate
zero-byte read, but the loop is also robust to a reader that returns the
last bytes together with `io.EOF`, so the embedding carries a Boolean
`eofWithLast` selecting between the two read behaviours (`false` is the
behaviour of `bufio.Reader` over `os.File`).

`isLastChunk := (err == io.EOF) || (n < encryptionBufferSize)`; the
chunk is pushed with `TagFinal` if it is last, else `TagMessage` and
`needsFinalChunk` is raised; after the loop an empty `TagFinal` chunk is
pushed iff `needsFinalChunk` is still set.  The header is NOT written to
the output; `totalWritten` accumulates only the ciphertext bytes. -/

/-- The sequence of `(plaintext, tag)` arguments passed to
`encryptor.Push` by the `EncryptFile` loop, starting from remaining
input `rem` and flag `needsFinalChunk`. -/
def encryptPushList (eofWithLast : Bool) (rem : List ℕ) (needsFinalChunk : Bool) :
    List (List ℕ × ℕ) :=
  if hrem : rem = [] then
    if needsFinalChunk then [([], TagFinal)] else []
  else
    let n := min rem.length encryptionBufferSize
    let isLast : Bool :=
      (eofWithLast && decide (rem.length ≤ encryptionBufferSize)) ||
        decide (n < encryptionBufferSize)
    let tag := if isLast then TagFinal else TagMessage
    (rem.take encryptionBufferSize, tag) ::
      encryptPushList eofWithLast (rem.drop encryptionBufferSize) (!isLast)
termination_by rem.length
decreasing_by
  simp only [List.length_drop]
  have hpos : 0 < rem.length := List.length_pos.mpr hrem
  have hB : 0 < encryptionBufferSize := by norm_num [encryptionBufferSize]
  omega

/-- Thread the encryptor state over a list of pushes, collecting the
ciphertext of each push in order. -/
def pushAll {σ : Type} (E : StreamEncryptor σ) : σ → List (List ℕ × ℕ) → List (List ℕ)
  | _, [] => []
  | s, (m, t) :: rest =>
    let pc := E.push s m t
    pc.1 :: pushAll E pc.2 rest

/-- The writer loop of `EncryptFile`: appends each encrypted chunk to
the output file and accumulates `totalWritten`.  Faithful to the Go
control flow (read, tag decision, push, write, final empty chunk). -/
def encryptFileLoop {σ : Type} (E : StreamEncryptor σ) (eofWithLast : Bool)
    (s : σ) (rem : List ℕ) (needsFinalChunk : Bool)
    (out : List ℕ) (totalWritten : ℕ) : List ℕ × ℕ :=
  if hrem : rem = [] then
    if needsFinalChunk then
      let pc := E.push s [] TagFinal
      (out ++ pc.1, totalWritten + pc.1.length)
    else (out, totalWritten)
  else
    let n := min rem.length encryptionBufferSize
    let isLast : Bool :=
      (eofWithLast && decide (rem.length ≤ encryptionBufferSize)) ||
        decide (n < encryptionBufferSize)
    let tag := if isLast then TagFinal else TagMessage
    let pc := E.push s (rem.take encryptionBufferSize) tag
    encryptFileLoop E eofWithLast pc.2 (rem.drop encryptionBufferSize) (!isLast)
      (out ++ pc.1) (totalWritten + pc.1.length)
termination_by rem.length
decreasing_by
  simp only [List.length_drop]
  have hpos : 0 < rem.length := List.length_pos.mpr hrem
  have hB : 0 < encryptionBufferSize := by norm_num [encryptionBufferSize]
  omega

/-- `EncryptFile` over plaintext `P`: the bytes written to the output
file and the returned encrypted size, for the `os.File` read behaviour
(`io.EOF` on a separate zero-byte read). -/
def EncryptFile {σ : Type} (E : StreamEncryptor σ) (P : List ℕ) : List ℕ × ℕ :=
  encryptFileLoop E false E.initState P false [] 0

/-- The encrypted chunks written by `EncryptFile P`, in order. -/
def EncryptFileChunks {σ : Type} (E : StreamEncryptor σ) (P : List ℕ) : List (List ℕ) :=
  pushAll E E.initState (encryptPushList false P false)

/-- The `(plaintext, tag)` pushes of `EncryptFile P` (read behaviour of
`os.File`: EOF is reported on a separate zero-byte read). -/
def EncryptFilePushes (P : List ℕ) : List (List ℕ × ℕ) :=
  encryptPushList false P false

/-- The `(plaintext length, tag)` pairs of the chunks produced by the
`EncryptFile` loop on plaintext `P`. -/
def EncryptFileChunkSizes (eofWithLast : Bool) (P : List ℕ) : List (ℕ × ℕ) :=
  (encryptPushList eofWithLast P false).map (fun c => (c.1.length, c.2))

/-- Size-level mirror of the `EncryptFile` loop: the same recursion as
`encryptPushList`, tracking only the number of remaining input bytes. -/
def chunkLoop (eofWithLast : Bool) (rem : ℕ) (needsFinalChunk : Bool) : List (ℕ × ℕ) :=
  if rem = 0 then
    if needsFinalChunk then [(0, TagFinal)] else []
  else
    let n := min rem encryptionBufferSize
    let isLast : Bool :=
      (eofWithLast && decide (rem ≤ encryptionBufferSize)) ||
        decide (n < encryptionBufferSize)
    let tag := if isLast then TagFinal else TagMessage
    (n, tag) :: chunkLoop eofWithLast (rem - encryptionBufferSize) (!isLast)
termination_by rem
decreasing_by
  have hB : 0 < encryptionBufferSize := by norm_num [encryptionBufferSize]
  omega

/-- Concrete encryptor used to instantiate the cipher-generic theorems:
its push is a trivial reversible framing satisfying the spec length
law. -/
def idEncryptor : StreamEncryptor Unit where
  initState := ()
  header := List.replicate 24 0
  push := fun _ m t => (t :: (m ++ List.replicate 16 0), ())


/-! ## SecretBox key wrap

Modelled from the spec: `Wrap(plain, key)` seals with a fresh 24-byte
nonce; `Unwrap(sealed, nonce, key)` recovers the plaintext exactly for
the matching nonce and key and fails (`auth-failed`) otherwise.  The
actual NaCl secretbox lives in `cli/internal/crypto` and
`golang.org/x/crypto/nacl/secretbox`, neither under the provided
sources, so it is modelled as an ideal authenticated box: the sealed
value records the message with the nonce and key it was sealed under,
and opening checks them.  The base64 transport encoding used by the Go
code is elided (values are carried as byte lists). -/

structure SealedBox where
  boxMsg : List ℕ
  boxNonce : List ℕ
  boxKey : List ℕ
deriving DecidableEq

/-- Modelled from the spec: `secretbox.Seal` under `key` with `nonce`. -/
def secretboxSeal (msg nonce key : List ℕ) : SealedBox :=
  ⟨msg, nonce, key⟩

/-- Modelled from the spec: `crypto.SecretBoxOpen`; returns the sealed
message iff nonce and key match, else fails. -/
def SecretBoxOpen (box : SealedBox) (nonce key : List ℕ) : Option (List ℕ) :=
  if box.boxNonce = nonce ∧ box.boxKey = key then some box.boxMsg else none

/-! ## Control-plane server model and the duplicate handler
(cli/pkg/watcher/duplicate_handler.go, internal/api) -/

/-- `api.CollectionFileItem`: the payload of `add_files_to_collection`
for one file — id, sealed file key, wrap nonce; nothing else. -/
structure CollectionFileItem where
  id : ℤ
  encryptedKey : SealedBox
  keyDecryptionNonce : List ℕ
deriving DecidableEq

/-- A catalog entry on the server: sealed file key + nonce as stored for
the original collection, and the immutable file payload (blob, stream
header, thumbnail, metadata). -/
structure FileRecord where
  encryptedKey : SealedBox
  keyDecryptionNonce : List ℕ
  blob : List ℕ
  decryptionHeader : List ℕ
  thumbnail : List ℕ
  metadata : List ℕ

/-- Server-side state: catalog entries by file id, and the per-collection
sealed-key entries `(collectionID, fileID, sealedKey, nonce)`. -/
structure ServerState where
  files : ℤ → FileRecord
  collectionEntries : List (ℤ × ℤ × SealedBox × List ℕ)

/-- The control-plane calls issued by the duplicate handler. -/
inductive ApiCall
  | getFile (collectionID fileID : ℤ)
  | getAllCollections
  | addFilesToCollection (collectionID : ℤ) (files : List CollectionFileItem)

/-- Server-side effect of one call: `get_file` and `get_collections` are
reads; `add_files_to_collection` records the sealed keys for the target
collection and touches nothing else. -/
def applyCall (st : ServerState) : ApiCall → ServerState
  | ApiCall.getFile _ _ => st
  | ApiCall.getAllCollections => st
  | ApiCall.addFilesToCollection cid items =>
    { st with collectionEntries :=
        items.map (fun it => (cid, it.id, it.encryptedKey, it.keyDecryptionNonce)) ++
          st.collectionEntries }

def applyCalls (st : ServerState) (calls : List ApiCall) : ServerState :=
  calls.foldl applyCall st

/-- `decryptFileKey`: base64-decode (elided) and `SecretBoxOpen` with
the collection key. -/
def decryptFileKey (encryptedKey : SealedBox) (nonce : List ℕ)
    (collectionKey : List ℕ) : Except String (List ℕ) :=
  match SecretBoxOpen encryptedKey nonce collectionKey with
  | some fileKey => Except.ok fileKey
  | none => Except.error "failed to decrypt file key"

/-- `encryptFileKey`: seal the file key under the collection key with a
fresh random 24-byte nonce (the randomness is the `nonceBytes`
parameter). -/
def encryptFileKey (fileKey collectionKey nonceBytes : List ℕ) :
    SealedBox × List ℕ :=
  (secretboxSeal fileKey nonceBytes collectionKey, nonceBytes)

/-- `getCollectionKey`: fetch all collections and return the (already
keyHolder-decrypted) key of the one with the requested id.  The
collection list carries `(id, key)` pairs. -/
def getCollectionKey (collections : List (ℤ × List ℕ)) (collectionID : ℤ) :
    Except String (List ℕ) :=
  match collections.find? (fun c => decide (c.1 = collectionID)) with
  | some c => Except.ok c.2
  | none => Except.error "collection not found"

/-- `addFileToAlbum`: fetch the catalog entry, resolve the original
collection key, unwrap the sealed file key, re-wrap it under the target
collection key with a fresh nonce, and call
`add_files_to_collection(target, [item])`.  Returns the item sent and
the list of control-plane calls issued, in order. -/
def addFileToAlbum (st : ServerState) (collections : List (ℤ × List ℕ))
    (freshNonce : List ℕ) (fileID originalCollectionID targetCollectionID : ℤ)
    (targetCollectionKey : List ℕ) :
    Except String (CollectionFileItem × List ApiCall) :=
  let file := st.files fileID
  match getCollectionKey collections originalCollectionID with
  | Except.error e => Except.error e
  | Except.ok originalCollectionKey =>
    match decryptFileKey file.encryptedKey file.keyDecryptionNonce
        originalCollectionKey with
    | Except.error e => Except.error e
    | Except.ok fileKey =>
      let ek := encryptFileKey fileKey targetCollectionKey freshNonce
      let item : CollectionFileItem := ⟨fileID, ek.1, ek.2⟩
      Except.ok (item,
        [ApiCall.getFile originalCollectionID fileID,
         ApiCall.getAllCollections,
         ApiCall.addFilesToCollection targetCollectionID [item]])

/-! ## Deduplication store (cli/pkg/store.go, current revision)

The BoltDB `fileHashes` bucket maps a content hash to a byte-string
value.  A stored value either JSON-decodes to the structured record
`{"fileID": .., "collectionID": ..}`, or is a legacy plain-decimal
file-id string, or is neither; the three cases are modelled as an
inductive. -/

inductive StoredValue
  | structuredV (fileID collectionID : ℤ)
  | decimalV (fileID : ℤ)
  | malformedV
deriving DecidableEq

/-- `model.FileHashMapping`. -/
structure FileHashMapping where
  fileID : ℤ
  collectionID : ℤ
deriving DecidableEq

/-- `GetFileHashMapping`: JSON-decode the structured record; if that
fails, fall back to parsing the value as a legacy plain-decimal file-id
(collection id 0); error if neither parses.  `none` when the hash is
absent. -/
def GetFileHashMapping (store : String → Option StoredValue) (fileHash : String) :
    Except String (Option FileHashMapping) :=
  match store fileHash with
  | none => Except.ok none
  | some (StoredValue.structuredV f c) => Except.ok (some ⟨f, c⟩)
  | some (StoredValue.decimalV f) => Except.ok (some ⟨f, 0⟩)
  | some StoredValue.malformedV => Except.error "failed to parse file hash mapping"

/-- `GetFileIDByHash` (current revision): via `GetFileHashMapping`;
returns 0 when absent. -/
def GetFileIDByHash (store : String → Option StoredValue) (fileHash : String) :
    Except String ℤ :=
  match GetFileHashMapping store fileHash with
  | Except.error e => Except.error e
  | Except.ok none => Except.ok 0
  | Except.ok (some m) => Except.ok m.fileID

/-- `SaveFileHashMapping`: always writes the structured record. -/
def SaveFileHashMapping (store : String → Option StoredValue) (fileHash : String)
    (fileID collectionID : ℤ) : String → Option StoredValue :=
  fun h => if h = fileHash then some (StoredValue.structuredV fileID collectionID)
           else store h

/-- `SaveFileHash` (legacy entry point, current revision): delegates to
`SaveFileHashMapping` with collection id 0. -/
def SaveFileHash (store : String → Option StoredValue) (fileHash : String)
    (fileID : ℤ) : String → Option StoredValue :=
  SaveFileHashMapping store fileHash fileID 0

/-- `uploader.CheckLocalDuplicate`: found iff the stored file id is
non-zero. -/
def CheckLocalDuplicate (store : String → Option StoredValue) (hash : String) :
    Except String (ℤ × Bool) :=
  match GetFileIDByHash store hash with
  | Except.error e => Except.error e
  | Except.ok fileID =>
    if fileID = 0 then Except.ok (0, false) else Except.ok (fileID, true)

/-! ## The per-file upload pipeline (uploader.go uploadFile) -/

/-- The observable side-effecting steps of `uploadFile`, in pipeline
order. -/
inductive UploadStep
  | validateStep
  | hashStep
  | dedupCheckStep
  | metadataStep
  | thumbnailStep
  | encryptStep
  | s3UploadStep
  | commitStep
  | storeHashStep
deriving DecidableEq

/-- Environment of one `uploadFile` run: whether each external step
succeeds, the content hash of the path, and the file id the server
assigns at commit. -/
structure UploadEnv where
  validateOk : Bool
  hashOk : Bool
  fileHash : String
  metadataOk : Bool
  thumbnailOk : Bool
  encryptOk : Bool
  s3Ok : Bool
  commitOk : Bool
  assignedFileID : ℤ
  storeOk : Bool

/-- The fields of `uploader.UploadResult` relevant here. -/
structure UploadResultM where
  success : Bool
  skipped : Bool
  fileID : ℤ
deriving DecidableEq

/-- `uploadFile` (uploader.go): validate, hash, dedup check unless
forced (skip with the existing id when found), metadata, thumbnail,
encrypt, S3 upload, commit (`create_file`, yielding the server id),
store the hash mapping (failure non-fatal).  Returns the result, the
dedup store after the run, and the steps that were performed. -/
def uploadFile (env : UploadEnv) (force : Bool)
    (store : String → Option StoredValue) :
    UploadResultM × (String → Option StoredValue) × List UploadStep :=
  if env.validateOk = false then
    (⟨false, false, 0⟩, store, [UploadStep.validateStep])
  else if env.hashOk = false then
    (⟨false, false, 0⟩, store, [UploadStep.validateStep, UploadStep.hashStep])
  else
    let prefixSteps := [UploadStep.validateStep, UploadStep.hashStep]
    match (if force then Except.ok ((0 : ℤ), false)
        else CheckLocalDuplicate store env.fileHash : Except String (ℤ × Bool)) with
    | Except.error _ =>
      (⟨false, false, 0⟩, store, prefixSteps ++ [UploadStep.dedupCheckStep])
    | Except.ok (existingID, found) =>
      let steps1 := if force then prefixSteps
                    else prefixSteps ++ [UploadStep.dedupCheckStep]
      if found then
        (⟨false, true, existingID⟩, store, steps1)
      else if env.metadataOk = false then
        (⟨false, false, 0⟩, store, steps1 ++ [UploadStep.metadataStep])
      else if env.thumbnailOk = false then
        (⟨false, false, 0⟩, store,
          steps1 ++ [UploadStep.metadataStep, UploadStep.thumbnailStep])
      else if env.encryptOk = false then
        (⟨false, false, 0⟩, store,
          steps1 ++ [UploadStep.metadataStep, UploadStep.thumbnailStep,
            UploadStep.encryptStep])
      else if env.s3Ok = false then
        (⟨false, false, 0⟩, store,
          steps1 ++ [UploadStep.metadataStep, UploadStep.thumbnailStep,
            UploadStep.encryptStep, UploadStep.s3UploadStep])
      else if env.commitOk = false then
        (⟨false, false, 0⟩, store,
          steps1 ++ [UploadStep.metadataStep, UploadStep.thumbnailStep,
            UploadStep.encryptStep, UploadStep.s3UploadStep, UploadStep.commitStep])
      else
        let store2 := if env.storeOk then
            SaveFileHash store env.fileHash env.assignedFileID
          else store
        (⟨true, false, env.assignedFileID⟩, store2,
          steps1 ++ [UploadStep.metadataStep, UploadStep.thumbnailStep,
            UploadStep.encryptStep, UploadStep.s3UploadStep, UploadStep.commitStep,
            UploadStep.storeHashStep])

/-- Two consecutive `uploadFile` runs on the same path (same env), the
second over the store left by the first; returns both results and the
total number of catalog commits. -/
def uploadFileTwice (env : UploadEnv) (force : Bool)
    (store : String → Option StoredValue) :
    UploadResultM × UploadResultM × ℕ :=
  let r1 := uploadFile env force store
  let r2 := uploadFile env force r1.2.1
  (r1.1, r2.1, r1.2.2.count UploadStep.commitStep + r2.2.2.count UploadStep.commitStep)

/-! ## Watcher duplicate handling (duplicate_handler.go) -/

inductive FileProcessStatus
  | statusProcessing
  | statusUploaded
  | statusDuplicate
  | statusFailed
deriving DecidableEq

/-- `model.ProcessedFile` (error string elided). -/
structure ProcessedFile where
  filePath : String
  fileHash : String
  fileID : ℤ
  collectionID : ℤ
  processedAt : ℕ
  status : FileProcessStatus
deriving DecidableEq

/-- `CheckAndHandleDuplicate`: look up the hash mapping; absent → not a
duplicate; mapping in the target collection → record a `duplicate`
processed-file and return; otherwise re-wrap via `addFileToAlbum` and
record a `duplicate` processed-file.  Returns the
`(fileID, collectionID, isDuplicate)` result, the control-plane calls
issued, the processed-file records written, and the hash-mapping store
after the call. -/
def CheckAndHandleDuplicate (store : String → Option StoredValue)
    (st : ServerState) (collections : List (ℤ × List ℕ)) (freshNonce : List ℕ)
    (fileHash filePath : String) (targetCollectionID : ℤ)
    (targetCollectionKey : List ℕ) (now : ℕ) :
    Except String (ℤ × ℤ × Bool) × List ApiCall × List ProcessedFile ×
      (String → Option StoredValue) :=
  match GetFileHashMapping store fileHash with
  | Except.error _ =>
    (Except.error "failed to check duplicate", [], [], store)
  | Except.ok none =>
    (Except.ok (0, 0, false), [], [], store)
  | Except.ok (some mapping) =>
    if mapping.collectionID = targetCollectionID then
      (Except.ok (mapping.fileID, targetCollectionID, true), [],
        [⟨filePath, fileHash, mapping.fileID, targetCollectionID, now,
          FileProcessStatus.statusDuplicate⟩], store)
    else
      match addFileToAlbum st collections freshNonce mapping.fileID
          mapping.collectionID targetCollectionID targetCollectionKey with
      | Except.error e => (Except.error e, [], [], store)
      | Except.ok (_, calls) =>
        (Except.ok (mapping.fileID, targetCollectionID, true), calls,
          [⟨filePath, fileHash, mapping.fileID, targetCollectionID, now,
            FileProcessStatus.statusDuplicate⟩], store)

/-! ## S3 uploader (uploader.go uploadFileToS3, thumbnail.go
ComputePartMD5s / UploadMultipart) -/

/-- `uploadFileToS3`: multipart iff the encrypted size is at least
`config.MultipartMin` (both call sites pass `DefaultMultipartMin`,
20 MiB); single PUT otherwise. -/
def chooseMultipart (fileSize : ℕ) : Bool :=
  decide (DefaultMultipartMin ≤ fileSize)

/-- The read loop of `ComputePartMD5s`: `partCount` iterations, each
reading `min(remaining, partSize)` bytes and hashing them.  This tracks
the byte length of each part; the code computes exactly one MD5 per
entry. -/
def partSizesLoop : ℕ → ℕ → List ℕ
  | 0, _ => []
  | k + 1, rem =>
    min rem multipartPartSize :: partSizesLoop k (rem - multipartPartSize)

/-- The part lengths (one per computed part MD5) of `ComputePartMD5s`
over a file of `fileSize` bytes, with
`partCount = (fileSize + partSize - 1) / partSize`. -/
def computePartSizes (fileSize : ℕ) : List ℕ :=
  partSizesLoop ((fileSize + multipartPartSize - 1) / multipartPartSize) fileSize

/-- The part-upload loop of `UploadMultipart`: iterate over the part
URLs; read `min(remaining, partSize)` bytes, break when a read returns
zero bytes (leaving the remaining ETags empty), require a 200 response
with a non-empty `ETag` for each uploaded part (`etagOf i` is the ETag
of part index `i`, `none` for a failed upload). -/
def collectEtags (etagOf : ℕ → Option String) : ℕ → ℕ → ℕ → Except String (List String)
  | 0, _, _ => Except.ok []
  | todo + 1, rem, i =>
    let n := min rem multipartPartSize
    if n = 0 then Except.ok (List.replicate (todo + 1) "")
    else
      match etagOf i with
      | none => Except.error "part upload failed"
      | some e =>
        if e = "" then Except.error "part upload succeeded but ETag is empty"
        else
          match collectEtags etagOf todo (rem - multipartPartSize) (i + 1) with
          | Except.error err => Except.error err
          | Except.ok rest => Except.ok (e :: rest)

/-- `UploadMultipart`: upload the parts, then build the
`CompleteMultipartUpload` part list with 1-based part numbers in upload
order, each carrying its ETag. -/
def uploadMultipartParts (fileSize numPartURLs : ℕ)
    (etagOf : ℕ → Option String) : Except String (List (ℕ × String)) :=
  match collectEtags etagOf numPartURLs fileSize 0 with
  | Except.error e => Except.error e
  | Except.ok etags =>
    Except.ok (((List.range etags.length).zip etags).map (fun q => (q.1 + 1, q.2)))

/-! ## Album-name resolution (watcher.go processFileFolderAlbumsMode,
file_watcher.go SanitizeAlbumName)

Strings are modelled as `List Char`.  The relative directory of the
dispatched file (what `filepath.Dir(filepath.Rel(root, path))` yields)
is given as its path components; the empty component list stands for a
file directly under the watch root (`Dir` returns `"."`). -/

def isSpaceChar (c : Char) : Bool := c.isWhitespace

def isSepChar (c : Char) : Bool := c = '/' || c = '\\'

/-- The three `strings.ReplaceAll` calls: `filepath.Separator`, `/` and
`\\` all become spaces (each pattern is a single character). -/
def replaceSeps (l : List Char) : List Char :=
  l.map (fun c => if isSepChar c then ' ' else c)

/-- `strings.TrimSpace`: drop leading and trailing whitespace. -/
def trimSpace (l : List Char) : List Char :=
  ((l.dropWhile isSpaceChar).reverse.dropWhile isSpaceChar).reverse

/-- `strings.Fields`: maximal runs of non-separator characters, the
separators being the characters satisfying `p`.  `cur` is the current
token being accumulated, in reverse. -/
def fieldsAux (p : Char → Bool) : List Char → List Char → List (List Char)
  | cur, [] => if cur = [] then [] else [cur.reverse]
  | cur, c :: rest =>
    if p c then
      if cur = [] then fieldsAux p [] rest
      else cur.reverse :: fieldsAux p [] rest
    else fieldsAux p (c :: cur) rest

def fieldsBy (p : Char → Bool) (l : List Char) : List (List Char) :=
  fieldsAux p [] l

/-- `strings.Join(fields, " ")`. -/
def joinFields : List (List Char) → List Char
  | [] => []
  | t :: rest =>
    match rest with
    | [] => t
    | _ :: _ => t ++ ' ' :: joinFields rest

def defaultAlbumChars : List Char := "CLI Uploads".toList

/-- `SanitizeAlbumName` (file_watcher.go): trim, replace path
separators with spaces, collapse whitespace runs via
`strings.Join(strings.Fields(name), " ")`, and substitute the default
album name for an empty result. -/
def SanitizeAlbumName (folderName : List Char) : List Char :=
  let name := trimSpace folderName
  let name := replaceSeps name
  let name := joinFields (fieldsBy isSpaceChar name)
  if name = [] then defaultAlbumChars else name

/-- Follows the spec words, to be compared with the source definition:
the sanitized album name is the directory name cut into maximal runs of
characters that are neither whitespace nor path separators, joined by
single spaces, with the default name substituted when no such run
exists. -/
def sanitizeSpecWords (folderName : List Char) : List Char :=
  let tokens := fieldsBy (fun c => isSpaceChar c || isSepChar c) folderName
  if tokens = [] then defaultAlbumChars else joinFields tokens

/-- `filepath.Dir` of the relative path, rebuilt from its components. -/
def joinWithSlash : List (List Char) → List Char
  | [] => []
  | t :: rest =>
    match rest with
    | [] => t
    | _ :: _ => t ++ '/' :: joinWithSlash rest

/-- `processFileFolderAlbumsMode` (watcher.go): the album is the
sanitized `filepath.Dir` of the root-relative path, or the default
album for files directly under the watch root. -/
def processFileFolderAlbumsMode (relDirComponents : List (List Char)) : List Char :=
  let dirName := if relDirComponents = [] then ['.']
                 else joinWithSlash relDirComponents
  if dirName ≠ ['.'] ∧ dirName ≠ [] then SanitizeAlbumName dirName
  else defaultAlbumChars

/-! ## Debouncer (debounce.go)

Trace semantics of the `DebounceQueue` event loop.  The state is the
map from path to the absolute time at which its one-shot timer fires
(`Add` at time `t` cancels the old timer and schedules `t + D`); timers
strictly earlier than the next input fire first; `Stop` cancels every
pending timer; after the whole input trace the remaining timers fire.
The output lists the dispatches `(path, time)` in order. -/

inductive DebounceEvent
  | addEvent (path : String) (time : ℕ)
  | stopEvent (time : ℕ)

def debounceStep (D : ℕ) (acc : List (String × ℕ) × List (String × ℕ)) :
    DebounceEvent → List (String × ℕ) × List (String × ℕ)
  | DebounceEvent.addEvent p t =>
    let fired := acc.1.filter (fun e => decide (e.2 < t))
    let pending := acc.1.filter (fun e => decide (¬ e.2 < t))
    let cancelled := pending.filter (fun e => decide (¬ e.1 = p))
    (cancelled ++ [(p, t + D)], acc.2 ++ fired)
  | DebounceEvent.stopEvent t =>
    let fired := acc.1.filter (fun e => decide (e.2 < t))
    ([], acc.2 ++ fired)

/-- Run a trace of debouncer inputs; the dispatches are those fired
during the trace followed by the timers still pending at its end. -/
def debounceRun (D : ℕ) (events : List DebounceEvent) : List (String × ℕ) :=
  let final := events.foldl (debounceStep D) ([], [])
  final.2 ++ final.1

/-- The time of the last event of `t :: rest`. -/
def lastTime : ℕ → List ℕ → ℕ
  | t, [] => t
  | _, t2 :: rest => lastTime t2 rest

lemma encryptionBufferSize_pos : 0 < encryptionBufferSize := by
  norm_num [encryptionBufferSize]

/-! ### Bridging the byte-level loop to the size-level loop -/

lemma encryptPushList_map_length (eofWithLast : Bool) :
    ∀ (k : ℕ) (rem : List ℕ) (nf : Bool), rem.length ≤ k →
      (encryptPushList eofWithLast rem nf).map (fun c => (c.1.length, c.2)) =
        chunkLoop eofWithLast rem.length nf := by
  intro k
  induction k with
  | zero =>
    intro rem nf h
    have hrem : rem = [] := by
      cases rem with
      | nil => rfl
      | cons a l => simp at h
    subst hrem
    unfold encryptPushList chunkLoop
    cases nf <;> simp
  | succ k ih =>
    intro rem nf h
    by_cases hrem : rem = []
    · subst hrem
      unfold encryptPushList chunkLoop
      cases nf <;> simp
    · have hlen : 0 < rem.length := List.length_pos.mpr hrem
      have hB := encryptionBufferSize_pos
      unfold encryptPushList chunkLoop
      rw [dif_neg hrem, if_neg (by omega)]
      simp only [List.map_cons, List.length_take, List.length_drop]
      rw [ih (rem.drop encryptionBufferSize) _
        (by simp only [List.length_drop]; omega)]
      simp only [List.length_drop, Nat.min_comm]

lemma encryptFileChunkSizes_eq (eofWithLast : Bool) (P : List ℕ) :
    EncryptFileChunkSizes eofWithLast P = chunkLoop eofWithLast P.length false :=
  encryptPushList_map_length eofWithLast P.length P false le_rfl

/-! ### Closed forms of the size-level loop -/

lemma chunkLoop_zero (eofWithLast : Bool) : chunkLoop eofWithLast 0 false = [] := by
  unfold chunkLoop
  simp

lemma chunkLoop_zero_true (eofWithLast : Bool) :
    chunkLoop eofWithLast 0 true = [(0, TagFinal)] := by
  unfold chunkLoop
  simp

/-- One step of the size-level loop: a read shorter than the buffer is
the last chunk and is tagged `FINAL`; the loop then stops. -/
lemma chunkLoop_small (eofWithLast : Bool) (L : ℕ) (nf : Bool)
    (h1 : 0 < L) (h2 : L < encryptionBufferSize) :
    chunkLoop eofWithLast L nf = [(L, TagFinal)] := by
  have hmin : min L encryptionBufferSize = L := Nat.min_eq_left (le_of_lt h2)
  have hz : L - encryptionBufferSize = 0 := by omega
  have hlast : (eofWithLast && decide (L ≤ encryptionBufferSize) ||
      decide (L < encryptionBufferSize)) = true := by
    simp [h2]
  conv_lhs => unfold chunkLoop
  rw [if_neg (by omega)]
  simp only [hmin, hlast, if_true, Bool.not_true, hz, chunkLoop_zero]

/-- One step of the size-level loop: a full buffer read that returns EOF
together with the bytes is the last chunk and is tagged `FINAL`. -/
lemma chunkLoop_full_eof (nf : Bool) :
    chunkLoop true encryptionBufferSize nf = [(encryptionBufferSize, TagFinal)] := by
  have hB := encryptionBufferSize_pos
  have hmin : min encryptionBufferSize encryptionBufferSize = encryptionBufferSize :=
    min_self _
  have hlast : (true && decide (encryptionBufferSize ≤ encryptionBufferSize) ||
      decide (encryptionBufferSize < encryptionBufferSize)) = true := by
    simp
  conv_lhs => unfold chunkLoop
  rw [if_neg (by omega)]
  simp only [hmin, hlast, if_true, Bool.not_true, Nat.sub_self, chunkLoop_zero]

/-- One step of the size-level loop: a full buffer read that is not the
last read (or is last but EOF arrives on a later zero-byte read) is
tagged `MESSAGE` and raises `needsFinalChunk`. -/
lemma chunkLoop_full_step (eofWithLast : Bool) (L : ℕ) (nf : Bool)
    (h1 : encryptionBufferSize ≤ L)
    (h2 : eofWithLast = false ∨ encryptionBufferSize < L) :
    chunkLoop eofWithLast L nf =
      (encryptionBufferSize, TagMessage) ::
        chunkLoop eofWithLast (L - encryptionBufferSize) true := by
  have hB := encryptionBufferSize_pos
  have hmin : min L encryptionBufferSize = encryptionBufferSize := Nat.min_eq_right h1
  have hlast : (eofWithLast && decide (L ≤ encryptionBufferSize) ||
      decide (encryptionBufferSize < encryptionBufferSize)) = false := by
    rcases h2 with h2 | h2
    · subst h2
      simp
    · simp
      omega
  conv_lhs => unfold chunkLoop
  rw [if_neg (by omega)]
  simp only [hmin, hlast, if_false, Bool.not_false]
  simp

/-- When the plaintext length is not an exact multiple of the buffer
size, the chunk list is `L / B` full `MESSAGE` chunks followed by one
short `FINAL` chunk of `L % B` bytes — for either read behaviour. -/
lemma chunkLoop_not_mul (eofWithLast : Bool) :
    ∀ (k L : ℕ) (nf : Bool), L ≤ k → 0 < L → L % encryptionBufferSize ≠ 0 →
      chunkLoop eofWithLast L nf =
        List.replicate (L / encryptionBufferSize) (encryptionBufferSize, TagMessage) ++
          [(L % encryptionBufferSize, TagFinal)] := by
  intro k
  induction k with
  | zero => intro L nf hk hL; omega
  | succ k ih =>
    intro L nf hk hL hmod
    have hB := encryptionBufferSize_pos
    by_cases hsmall : L < encryptionBufferSize
    · rw [chunkLoop_small eofWithLast L nf hL hsmall]
      have hdiv : L / encryptionBufferSize = 0 := Nat.div_eq_of_lt hsmall
      have hmod2 : L % encryptionBufferSize = L := Nat.mod_eq_of_lt hsmall
      simp [hdiv, hmod2]
    · have hge : encryptionBufferSize ≤ L := by omega
      have hne : L ≠ encryptionBufferSize := by
        intro hEq
        apply hmod
        rw [hEq, Nat.mod_self]
      have hgt : encryptionBufferSize < L := by omega
      rw [chunkLoop_full_step eofWithLast L nf hge (Or.inr hgt)]
      have hm : L - encryptionBufferSize + encryptionBufferSize = L := by omega
      have hmpos : 0 < L - encryptionBufferSize := by omega
      have hmmod : (L - encryptionBufferSize) % encryptionBufferSize ≠ 0 := by
        intro hz
        apply hmod
        calc L % encryptionBufferSize
            = (L - encryptionBufferSize + encryptionBufferSize) % encryptionBufferSize := by
              rw [hm]
          _ = (L - encryptionBufferSize) % encryptionBufferSize := Nat.add_mod_right _ _
          _ = 0 := hz
      rw [ih (L - encryptionBufferSize) true (by omega) hmpos hmmod]
      have hdiv : L / encryptionBufferSize =
          (L - encryptionBufferSize) / encryptionBufferSize + 1 := by
        conv_lhs => rw [← hm]
        exact Nat.add_div_right _ hB
      have hmod3 : L % encryptionBufferSize =
          (L - encryptionBufferSize) % encryptionBufferSize := by
        conv_lhs => rw [← hm]
        exact Nat.add_mod_right _ _
      rw [hdiv, hmod3, List.replicate_succ]
      exact (List.cons_append _ _ _).symm

/-- When the plaintext length is a positive exact multiple of the buffer
size and the reader reports EOF on a separate zero-byte read (the
`os.File` behaviour), the chunk list is `L / B` full `MESSAGE` chunks
followed by one empty `FINAL` terminator. -/
lemma chunkLoop_mul_false :
    ∀ (k L : ℕ) (nf : Bool), L ≤ k → 0 < L → L % encryptionBufferSize = 0 →
      chunkLoop false L nf =
        List.replicate (L / encryptionBufferSize) (encryptionBufferSize, TagMessage) ++
          [(0, TagFinal)] := by
  intro k
  induction k with
  | zero => intro L nf hk hL; omega
  | succ k ih =>
    intro L nf hk hL hmod
    have hB := encryptionBufferSize_pos
    have hge : encryptionBufferSize ≤ L := by
      rcases Nat.lt_or_ge L encryptionBufferSize with hlt | hge
      · exfalso
        have := Nat.mod_eq_of_lt hlt
        omega
      · exact hge
    rw [chunkLoop_full_step false L nf hge (Or.inl rfl)]
    by_cases hEq : L = encryptionBufferSize
    · subst hEq
      rw [Nat.sub_self, chunkLoop_zero_true]
      have hdiv : encryptionBufferSize / encryptionBufferSize = 1 := Nat.div_self hB
      rw [hdiv, List.replicate_one]
      exact List.singleton_append.symm
    · have hgt : encryptionBufferSize < L := by omega
      have hm : L - encryptionBufferSize + encryptionBufferSize = L := by omega
      have hmpos : 0 < L - encryptionBufferSize := by omega
      have hmmod : (L - encryptionBufferSize) % encryptionBufferSize = 0 := by
        have : L % encryptionBufferSize =
            (L - encryptionBufferSize) % encryptionBufferSize := by
          conv_lhs => rw [← hm]
          exact Nat.add_mod_right _ _
        omega
      rw [ih (L - encryptionBufferSize) true (by omega) hmpos hmmod]
      have hdiv : L / encryptionBufferSize =
          (L - encryptionBufferSize) / encryptionBufferSize + 1 := by
        conv_lhs => rw [← hm]
        exact Nat.add_div_right _ hB
      rw [hdiv, List.replicate_succ]
      exact (List.cons_append _ _ _).symm

/-- When the plaintext length is a positive exact multiple of the buffer
size and the reader returns the last bytes together with EOF, the final
full buffer itself is tagged `FINAL` and no empty terminator is pushed. -/
lemma chunkLoop_mul_true :
    ∀ (k L : ℕ) (nf : Bool), L ≤ k → 0 < L → L % encryptionBufferSize = 0 →
      chunkLoop true L nf =
        List.replicate (L / encryptionBufferSize - 1) (encryptionBufferSize, TagMessage) ++
          [(encryptionBufferSize, TagFinal)] := by
  intro k
  induction k with
  | zero => intro L nf hk hL; omega
  | succ k ih =>
    intro L nf hk hL hmod
    have hB := encryptionBufferSize_pos
    have hge : encryptionBufferSize ≤ L := by
      rcases Nat.lt_or_ge L encryptionBufferSize with hlt | hge
      · exfalso
        have := Nat.mod_eq_of_lt hlt
        omega
      · exact hge
    by_cases hEq : L = encryptionBufferSize
    · subst hEq
      rw [chunkLoop_full_eof nf]
      have hdiv : encryptionBufferSize / encryptionBufferSize = 1 := Nat.div_self hB
      rw [hdiv, show (1 : ℕ) - 1 = 0 from rfl, List.replicate_zero]
      exact (List.nil_append _).symm
    · have hgt : encryptionBufferSize < L := by omega
      rw [chunkLoop_full_step true L nf hge (Or.inr hgt)]
      have hm : L - encryptionBufferSize + encryptionBufferSize = L := by omega
      have hmpos : 0 < L - encryptionBufferSize := by omega
      have hmmod : (L - encryptionBufferSize) % encryptionBufferSize = 0 := by
        have : L % encryptionBufferSize =
            (L - encryptionBufferSize) % encryptionBufferSize := by
          conv_lhs => rw [← hm]
          exact Nat.add_mod_right _ _
        omega
      rw [ih (L - encryptionBufferSize) true (by omega) hmpos hmmod]
      have hdvd : encryptionBufferSize ∣ (L - encryptionBufferSize) :=
        Nat.dvd_of_mod_eq_zero hmmod
      have hmge : encryptionBufferSize ≤ L - encryptionBufferSize :=
        Nat.le_of_dvd hmpos hdvd
      have hq : 1 ≤ (L - encryptionBufferSize) / encryptionBufferSize :=
        (Nat.one_le_div_iff hB).mpr hmge
      have hdiv : L / encryptionBufferSize =
          (L - encryptionBufferSize) / encryptionBufferSize + 1 := by
        conv_lhs => rw [← hm]
        exact Nat.add_div_right _ hB
      rw [hdiv]
      rw [show (L - encryptionBufferSize) / encryptionBufferSize + 1 - 1 =
        ((L - encryptionBufferSize) / encryptionBufferSize - 1) + 1 by omega]
      rw [List.replicate_succ]
      exact (List.cons_append _ _ _).symm

/-! ### Step equations for the byte-level loop -/

lemma encryptPushList_nil (eofWithLast : Bool) (nf : Bool) :
    encryptPushList eofWithLast [] nf =
      if nf then [([], TagFinal)] else [] := by
  conv_lhs => unfold encryptPushList
  rw [dif_pos rfl]

lemma encryptPushList_cons (eofWithLast : Bool) (rem : List ℕ) (nf : Bool)
    (h : rem ≠ []) :
    encryptPushList eofWithLast rem nf =
      (rem.take encryptionBufferSize,
        if (eofWithLast && decide (rem.length ≤ encryptionBufferSize) ||
            decide (min rem.length encryptionBufferSize < encryptionBufferSize))
        then TagFinal else TagMessage) ::
      encryptPushList eofWithLast (rem.drop encryptionBufferSize)
        (!(eofWithLast && decide (rem.length ≤ encryptionBufferSize) ||
            decide (min rem.length encryptionBufferSize < encryptionBufferSize))) := by
  conv_lhs => unfold encryptPushList
  rw [dif_neg h]

lemma encryptFileLoop_nil {σ : Type} (E : StreamEncryptor σ) (eofWithLast : Bool)
    (s : σ) (nf : Bool) (out : List ℕ) (total : ℕ) :
    encryptFileLoop E eofWithLast s [] nf out total =
      if nf then
        (out ++ (E.push s [] TagFinal).1, total + ((E.push s [] TagFinal).1).length)
      else (out, total) := by
  conv_lhs => unfold encryptFileLoop
  rw [dif_pos rfl]

lemma encryptFileLoop_cons {σ : Type} (E : StreamEncryptor σ) (eofWithLast : Bool)
    (s : σ) (rem : List ℕ) (nf : Bool) (out : List ℕ) (total : ℕ) (h : rem ≠ []) :
    encryptFileLoop E eofWithLast s rem nf out total =
      encryptFileLoop E eofWithLast
        (E.push s (rem.take encryptionBufferSize)
          (if (eofWithLast && decide (rem.length ≤ encryptionBufferSize) ||
              decide (min rem.length encryptionBufferSize < encryptionBufferSize))
           then TagFinal else TagMessage)).2
        (rem.drop encryptionBufferSize)
        (!(eofWithLast && decide (rem.length ≤ encryptionBufferSize) ||
            decide (min rem.length encryptionBufferSize < encryptionBufferSize)))
        (out ++ (E.push s (rem.take encryptionBufferSize)
          (if (eofWithLast && decide (rem.length ≤ encryptionBufferSize) ||
              decide (min rem.length encryptionBufferSize < encryptionBufferSize))
           then TagFinal else TagMessage)).1)
        (total + ((E.push s (rem.take encryptionBufferSize)
          (if (eofWithLast && decide (rem.length ≤ encryptionBufferSize) ||
              decide (min rem.length encryptionBufferSize < encryptionBufferSize))
           then TagFinal else TagMessage)).1).length) := by
  conv_lhs => unfold encryptFileLoop
  rw [dif_neg h]

/-- The writer loop writes exactly the concatenation of the ciphertexts
of the pushes, and `totalWritten` counts exactly those bytes. -/
lemma encryptFileLoop_flatten {σ : Type} (E : StreamEncryptor σ) (eofWithLast : Bool) :
    ∀ (k : ℕ) (s : σ) (rem : List ℕ) (nf : Bool) (out : List ℕ) (total : ℕ),
      rem.length ≤ k →
      encryptFileLoop E eofWithLast s rem nf out total =
        (out ++ (pushAll E s (encryptPushList eofWithLast rem nf)).flatten,
         total + ((pushAll E s (encryptPushList eofWithLast rem nf)).flatten).length) := by
  intro k
  induction k with
  | zero =>
    intro s rem nf out total h
    have hrem : rem = [] := by
      cases rem with
      | nil => rfl
      | cons a l => simp at h
    subst hrem
    rw [encryptFileLoop_nil, encryptPushList_nil]
    cases nf <;> simp [pushAll]
  | succ k ih =>
    intro s rem nf out total h
    by_cases hrem : rem = []
    · subst hrem
      rw [encryptFileLoop_nil, encryptPushList_nil]
      cases nf <;> simp [pushAll]
    · have hB := encryptionBufferSize_pos
      have hlen : 0 < rem.length := List.length_pos.mpr hrem
      rw [encryptFileLoop_cons E eofWithLast s rem nf out total hrem,
        encryptPushList_cons eofWithLast rem nf hrem]
      rw [ih _ _ _ _ _ (by simp only [List.length_drop]; omega)]
      simp [pushAll, List.append_assoc, Nat.add_assoc]

/-- `pushAll` produces one ciphertext per push. -/
lemma pushAll_length {σ : Type} (E : StreamEncryptor σ) :
    ∀ (l : List (List ℕ × ℕ)) (s : σ), (pushAll E s l).length = l.length := by
  intro l
  induction l with
  | nil => intro s; simp [pushAll]
  | cons c rest ih =>
    intro s
    cases c with
    | mk m t => simp [pushAll, ih]

/-- Under the spec push-length law, the concatenated ciphertexts have
`(total plaintext) + 17 * (number of chunks)` bytes. -/
lemma pushAll_flatten_length {σ : Type} (E : StreamEncryptor σ) (hE : PushLenSpec E) :
    ∀ (l : List (List ℕ × ℕ)) (s : σ),
      ((pushAll E s l).flatten).length =
        (l.map (fun c => c.1.length)).sum + 17 * l.length := by
  intro l
  induction l with
  | nil => intro s; simp [pushAll]
  | cons c rest ih =>
    intro s
    cases c with
    | mk m t =>
      simp only [pushAll, List.flatten_cons, List.length_append, List.map_cons,
        List.sum_cons, List.length_cons, ih]
      rw [hE]
      ring

/-- The pushed plaintexts partition the input: their lengths sum to the
input length. -/
lemma encryptPushList_sum (eofWithLast : Bool) :
    ∀ (k : ℕ) (rem : List ℕ) (nf : Bool), rem.length ≤ k →
      ((encryptPushList eofWithLast rem nf).map (fun c => c.1.length)).sum =
        rem.length := by
  intro k
  induction k with
  | zero =>
    intro rem nf h
    have hrem : rem = [] := by
      cases rem with
      | nil => rfl
      | cons a l => simp at h
    subst hrem
    rw [encryptPushList_nil]
    cases nf <;> simp
  | succ k ih =>
    intro rem nf h
    by_cases hrem : rem = []
    · subst hrem
      rw [encryptPushList_nil]
      cases nf <;> simp
    · have hB := encryptionBufferSize_pos
      have hlen : 0 < rem.length := List.length_pos.mpr hrem
      rw [encryptPushList_cons eofWithLast rem nf hrem]
      simp only [List.map_cons, List.sum_cons, List.length_take]
      rw [ih _ _ (by simp only [List.length_drop]; omega)]
      simp only [List.length_drop]
      omega

/-! ### Helper facts for the claim theorems on chunk framing -/

lemma filter_pos_replicate_concat (q x t : ℕ) (hx : 0 < x) :
    (List.replicate q (encryptionBufferSize, TagMessage) ++ [(x, t)]).filter
        (fun c => decide (0 < c.1)) =
      List.replicate q (encryptionBufferSize, TagMessage) ++ [(x, t)] := by
  apply List.filter_eq_self.mpr
  intro a ha
  rcases List.mem_append.mp ha with h | h
  · have := List.eq_of_mem_replicate h
    subst this
    simpa using encryptionBufferSize_pos
  · simp only [List.mem_singleton] at h
    subst h
    simpa using hx

lemma ceil_div_of_not_dvd (L : ℕ) (hL : 0 < L)
    (hmod : L % encryptionBufferSize ≠ 0) :
    (L + encryptionBufferSize - 1) / encryptionBufferSize =
      L / encryptionBufferSize + 1 := by
  have hB := encryptionBufferSize_pos
  have h1 : L + encryptionBufferSize - 1 = (L - 1) + encryptionBufferSize := by omega
  rw [h1, Nat.add_div_right _ hB]
  have hnd : ¬ encryptionBufferSize ∣ L := fun hd =>
    hmod (Nat.mod_eq_zero_of_dvd hd)
  have h2 : (L - 1) + 1 = L := by omega
  have h3 : L / encryptionBufferSize = (L - 1) / encryptionBufferSize := by
    conv_lhs => rw [← h2]
    rw [Nat.succ_div, h2, if_neg hnd]
    omega
  rw [h3]

/-- **C1.** For every input plaintext and every encryptor satisfying the
spec push law (hence for every 32-byte file key), the output file
written by `EncryptFile` is exactly the concatenation of the encrypted
chunks — the 24-byte stream header contributes no bytes — and the
returned encrypted size equals the total length of the chunk
ciphertexts written, namely `|P| + 17 · (number of chunks)` with no
header bytes counted. -/
theorem C1_blob_is_chunks_only {σ : Type} (E : StreamEncryptor σ)
    (hpush : PushLenSpec E) (P : List ℕ) :
    (EncryptFile E P).1 = (EncryptFileChunks E P).flatten ∧
    (EncryptFile E P).2 = ((EncryptFileChunks E P).flatten).length ∧
    (EncryptFile E P).2 = P.length + 17 * (EncryptFilePushes P).length := by
  have h := encryptFileLoop_flatten E false P.length E.initState P false [] 0 le_rfl
  have h1 : EncryptFile E P =
      ((EncryptFileChunks E P).flatten, ((EncryptFileChunks E P).flatten).length) := by
    rw [EncryptFile, h]
    simp [EncryptFileChunks]
  refine ⟨by rw [h1], by rw [h1], ?_⟩
  rw [h1]
  simp only [EncryptFileChunks, EncryptFilePushes]
  rw [pushAll_flatten_length E hpush, encryptPushList_sum false P.length P false le_rfl]

lemma idEncryptor_pushLen : PushLenSpec idEncryptor := by
  intro s m t
  simp [idEncryptor, PushLenSpec]

/-- Witness for C1 at the concrete plaintext `[7, 8]`. -/
theorem C1_blob_is_chunks_only_witness :
    PushLenSpec idEncryptor ∧
    ((EncryptFile idEncryptor [7, 8]).1 =
        (EncryptFileChunks idEncryptor [7, 8]).flatten ∧
      (EncryptFile idEncryptor [7, 8]).2 =
        ((EncryptFileChunks idEncryptor [7, 8]).flatten).length ∧
      (EncryptFile idEncryptor [7, 8]).2 =
        ([7, 8] : List ℕ).length + 17 * (EncryptFilePushes [7, 8]).length) :=
  ⟨idEncryptor_pushLen, C1_blob_is_chunks_only idEncryptor idEncryptor_pushLen [7, 8]⟩

/-- **C2.** The chunk containing the last plaintext byte is pushed with
tag `FINAL` whenever that read returned EOF together with the bytes or
was short (i.e. the length is not an exact buffer multiple); and when
the plaintext size is a non-zero exact multiple of 4 MiB (with the
`os.File` reader, which reports EOF on a separate zero-byte read), the
chunk list is exactly the full-buffer `MESSAGE` pushes followed by one
additional empty `FINAL` push — so no other chunk is empty. -/
theorem C2_last_data_chunk_final (P : List ℕ) (eofWithLast : Bool) (hP : P ≠ []) :
    ((eofWithLast = true ∨ P.length % encryptionBufferSize ≠ 0) →
      Option.map Prod.snd
        (((EncryptFileChunkSizes eofWithLast P).filter
            (fun c => decide (0 < c.1))).getLast?) = some TagFinal) ∧
    (P.length % encryptionBufferSize = 0 →
      EncryptFileChunkSizes false P =
        List.replicate (P.length / encryptionBufferSize)
          (encryptionBufferSize, TagMessage) ++ [(0, TagFinal)]) := by
  have hL : 0 < P.length := List.length_pos.mpr hP
  constructor
  · intro hcase
    by_cases hmod : P.length % encryptionBufferSize = 0
    · have heof : eofWithLast = true := by
        rcases hcase with h | h
        · exact h
        · exact absurd hmod h
      subst heof
      rw [encryptFileChunkSizes_eq,
        chunkLoop_mul_true P.length P.length false le_rfl hL hmod,
        filter_pos_replicate_concat _ _ _ encryptionBufferSize_pos,
        List.getLast?_concat]
      rfl
    · rw [encryptFileChunkSizes_eq,
        chunkLoop_not_mul eofWithLast P.length P.length false le_rfl hL hmod,
        filter_pos_replicate_concat _ _ _ (Nat.pos_of_ne_zero hmod),
        List.getLast?_concat]
      rfl
  · intro hmod
    rw [encryptFileChunkSizes_eq,
      chunkLoop_mul_false P.length P.length false le_rfl hL hmod]

/-- Witness for C2 at the concrete plaintext `[1]` (one byte, short
read). -/
theorem C2_last_data_chunk_final_witness :
    ([1] : List ℕ) ≠ [] ∧
    (((false = true ∨ ([1] : List ℕ).length % encryptionBufferSize ≠ 0) →
      Option.map Prod.snd
        (((EncryptFileChunkSizes false [1]).filter
            (fun c => decide (0 < c.1))).getLast?) = some TagFinal) ∧
    (([1] : List ℕ).length % encryptionBufferSize = 0 →
      EncryptFileChunkSizes false [1] =
        List.replicate (([1] : List ℕ).length / encryptionBufferSize)
          (encryptionBufferSize, TagMessage) ++ [(0, TagFinal)])) :=
  ⟨by decide, C2_last_data_chunk_final [1] false (by decide)⟩

/-- **C3 (counterexample).** On the empty plaintext the `EncryptFile`
loop breaks on the first zero-byte read with `needsFinalChunk` still
unset, so the blob contains zero chunks — not the
`max(ceil(0 / 4 MiB), 1) = 1` chunk the claim requires — and in
particular no `FINAL` chunk at all. -/
theorem C3_chunk_count_counterexample :
    EncryptFileChunkSizes false ([] : List ℕ) = [] ∧
    (EncryptFileChunkSizes false ([] : List ℕ)).length ≠
      max ((([] : List ℕ).length + encryptionBufferSize - 1) /
        encryptionBufferSize) 1 := by
  have h : EncryptFileChunkSizes false ([] : List ℕ) = [] := by
    rw [encryptFileChunkSizes_eq]
    exact chunkLoop_zero false
  refine ⟨h, ?_⟩
  rw [h]
  decide

/-- **C3 (amended).** For every non-empty plaintext `P` the blob
contains exactly `max(ceil(|P| / 4 MiB), 1)` chunks when
`|P| mod 4 MiB ≠ 0`, and exactly `|P| / 4 MiB + 1` chunks with an empty
`FINAL` terminator when `|P|` is a non-zero multiple of 4 MiB; every
such blob contains at least one chunk and its last chunk carries tag
`FINAL`.  The empty plaintext, however, yields zero chunks. -/
theorem C3_chunk_count_amended (P : List ℕ) :
    (P = [] → EncryptFileChunkSizes false P = []) ∧
    (P ≠ [] →
      (P.length % encryptionBufferSize ≠ 0 →
        (EncryptFileChunkSizes false P).length =
          max ((P.length + encryptionBufferSize - 1) / encryptionBufferSize) 1) ∧
      (P.length % encryptionBufferSize = 0 →
        (EncryptFileChunkSizes false P).length =
          P.length / encryptionBufferSize + 1 ∧
        (EncryptFileChunkSizes false P).getLast? = some (0, TagFinal)) ∧
      EncryptFileChunkSizes false P ≠ [] ∧
      Option.map Prod.snd ((EncryptFileChunkSizes false P).getLast?) =
        some TagFinal) := by
  constructor
  · intro hP
    subst hP
    rw [encryptFileChunkSizes_eq]
    exact chunkLoop_zero false
  · intro hP
    have hL : 0 < P.length := List.length_pos.mpr hP
    have hform := encryptFileChunkSizes_eq false P
    refine ⟨?_, ?_, ?_, ?_⟩
    · intro hmod
      rw [hform, chunkLoop_not_mul false P.length P.length false le_rfl hL hmod]
      rw [ceil_div_of_not_dvd P.length hL hmod]
      have hq : 1 ≤ P.length / encryptionBufferSize + 1 :=
        Nat.succ_le_succ (Nat.zero_le _)
      simp [Nat.max_eq_left hq]
    · intro hmod
      rw [hform, chunkLoop_mul_false P.length P.length false le_rfl hL hmod]
      constructor
      · simp
      · exact List.getLast?_concat _
    · rw [hform]
      by_cases hmod : P.length % encryptionBufferSize = 0
      · rw [chunkLoop_mul_false P.length P.length false le_rfl hL hmod]
        simp
      · rw [chunkLoop_not_mul false P.length P.length false le_rfl hL hmod]
        simp
    · rw [hform]
      by_cases hmod : P.length % encryptionBufferSize = 0
      · rw [chunkLoop_mul_false P.length P.length false le_rfl hL hmod,
          List.getLast?_concat]
        rfl
      · rw [chunkLoop_not_mul false P.length P.length false le_rfl hL hmod,
          List.getLast?_concat]
        rfl

/-- Witness for the amended C3 at the concrete plaintext `[0]`. -/
theorem C3_chunk_count_amended_witness :
    (EncryptFileChunkSizes false [0]).length =
      max ((([0] : List ℕ).length + encryptionBufferSize - 1) /
        encryptionBufferSize) 1 :=
  (((C3_chunk_count_amended [0]).2 (by decide)).1) (by decide)

/-! ### C4, C10: duplicate handler -/

/-- Concrete inputs for the duplicate-handler witnesses. -/
def witnessFileRecord : FileRecord :=
  ⟨secretboxSeal [9] [3] [1], [3], [5], [6], [7], [8]⟩

def witnessServerState : ServerState :=
  ⟨fun _ => witnessFileRecord, []⟩

def witnessHashStore : String → Option StoredValue :=
  fun h => if h = "h1" then some (StoredValue.structuredV 7 4) else none

/-- **C4.** When the duplicate handler moves a file from collection A
to collection B, it issues exactly one `add_files_to_collection` call
for B carrying a single item, and the new sealed file key in that item,
unwrapped with B collection key and the new nonce, equals the file key
that was unwrapped from A sealed key; applying the issued calls to the
server leaves every catalog entry payload (blob, stream header,
thumbnail, metadata — the whole `files` table) unchanged. -/
theorem C4_rewrap_preserves_file_key (st : ServerState)
    (collections : List (ℤ × List ℕ)) (freshNonce : List ℕ)
    (fileID origCID targetCID : ℤ) (targetKey origKey fk : List ℕ)
    (hkey : getCollectionKey collections origCID = Except.ok origKey)
    (hopen : SecretBoxOpen (st.files fileID).encryptedKey
      (st.files fileID).keyDecryptionNonce origKey = some fk) :
    ∃ item calls,
      addFileToAlbum st collections freshNonce fileID origCID targetCID targetKey =
        Except.ok (item, calls) ∧
      SecretBoxOpen item.encryptedKey item.keyDecryptionNonce targetKey = some fk ∧
      calls = [ApiCall.getFile origCID fileID, ApiCall.getAllCollections,
        ApiCall.addFilesToCollection targetCID [item]] ∧
      (∀ id, (applyCalls st calls).files id = st.files id) ∧
      (targetCID, fileID, item.encryptedKey, item.keyDecryptionNonce) ∈
        (applyCalls st calls).collectionEntries := by
  refine ⟨⟨fileID, secretboxSeal fk freshNonce targetKey, freshNonce⟩, _, ?_, ?_, rfl, ?_, ?_⟩
  · simp [addFileToAlbum, hkey, decryptFileKey, hopen, encryptFileKey]
  · simp [SecretBoxOpen, secretboxSeal]
  · intro id
    simp [applyCalls, applyCall]
  · simp [applyCalls, applyCall]

/-- Witness for C4 with concrete keys: collection A has key `[1]`, the
catalog holds the file key `[9]` sealed under `[1]` with nonce `[3]`,
and the target collection key is `[2]` with fresh nonce `[4]`. -/
theorem C4_rewrap_preserves_file_key_witness :
    getCollectionKey [((1 : ℤ), [1])] 1 = Except.ok [1] ∧
    SecretBoxOpen (witnessServerState.files 2).encryptedKey
      (witnessServerState.files 2).keyDecryptionNonce [1] = some [9] ∧

    ∃ item calls,
      addFileToAlbum witnessServerState [((1 : ℤ), [1])] [4] 2 1 3 [2] =
        Except.ok (item, calls) ∧
      SecretBoxOpen item.encryptedKey item.keyDecryptionNonce [2] = some [9] ∧
      calls = [ApiCall.getFile 1 2, ApiCall.getAllCollections,
        ApiCall.addFilesToCollection 3 [item]] ∧
      (∀ id, (applyCalls witnessServerState calls).files id =
        witnessServerState.files id) ∧
      ((3 : ℤ), (2 : ℤ), item.encryptedKey, item.keyDecryptionNonce) ∈
        (applyCalls witnessServerState calls).collectionEntries :=
  ⟨rfl, by decide,
    C4_rewrap_preserves_file_key witnessServerState [((1 : ℤ), [1])] [4] 2 1 3
      [2] [1] [9] rfl (by decide)⟩

/-- **C10.** When the hash mapping points at the target collection, the
duplicate handler records one `duplicate` processed-file and returns the
mapped file id with the target collection id; it issues no control-plane
call and leaves the hash-mapping store unchanged. -/
theorem C10_same_collection_short_circuit
    (store : String → Option StoredValue) (st : ServerState)
    (collections : List (ℤ × List ℕ)) (freshNonce : List ℕ)
    (fileHash filePath : String) (targetCID : ℤ) (targetKey : List ℕ) (now : ℕ)
    (m : FileHashMapping)
    (hmap : GetFileHashMapping store fileHash = Except.ok (some m))
    (hsame : m.collectionID = targetCID) :
    CheckAndHandleDuplicate store st collections freshNonce fileHash filePath
        targetCID targetKey now =
      (Except.ok (m.fileID, targetCID, true), [],
        [⟨filePath, fileHash, m.fileID, targetCID, now,
          FileProcessStatus.statusDuplicate⟩], store) := by
  simp [CheckAndHandleDuplicate, hmap, hsame]

/-- Witness for C10: the hash `"h1"` maps to file 7 in collection 4 and
the target collection is 4 itself. -/
theorem C10_same_collection_short_circuit_witness :
    GetFileHashMapping witnessHashStore "h1" =
      Except.ok (some ⟨7, 4⟩) ∧
    CheckAndHandleDuplicate witnessHashStore witnessServerState [] [] "h1" "/w/a.jpg"
        4 [2] 100 =
      (Except.ok ((7 : ℤ), (4 : ℤ), true), [],
        [⟨"/w/a.jpg", "h1", 7, 4, 100, FileProcessStatus.statusDuplicate⟩],
        witnessHashStore) :=
  ⟨rfl,
    C10_same_collection_short_circuit witnessHashStore witnessServerState [] []
      "h1" "/w/a.jpg" 4 [2] 100 ⟨7, 4⟩ rfl rfl⟩

/-! ### C7: deduplication store decode/encode -/

/-- **C7.** The lookup decodes the structured `{fileID, collectionID}`
record when the stored value is structured; when structured decoding
fails it falls back to the legacy plain-decimal file id, yielding
collection id 0; a value that decodes neither way is an error; and both
write entry points — `SaveFileHashMapping` and the legacy
`SaveFileHash` — store the structured format (other keys untouched). -/
theorem C7_hash_store_format (store : String → Option StoredValue)
    (h hw : String) (f c : ℤ) :
    (store h = some (StoredValue.structuredV f c) →
      GetFileHashMapping store h = Except.ok (some ⟨f, c⟩)) ∧
    (store h = some (StoredValue.decimalV f) →
      GetFileHashMapping store h = Except.ok (some ⟨f, 0⟩)) ∧
    (store h = some StoredValue.malformedV →
      GetFileHashMapping store h = Except.error "failed to parse file hash mapping") ∧
    (store h = none → GetFileHashMapping store h = Except.ok none) ∧
    SaveFileHashMapping store hw f c hw = some (StoredValue.structuredV f c) ∧
    SaveFileHash store hw f hw = some (StoredValue.structuredV f 0) ∧
    (∀ h2, h2 ≠ hw → SaveFileHashMapping store hw f c h2 = store h2) := by
  refine ⟨?_, ?_, ?_, ?_, ?_, ?_, ?_⟩
  · intro hs
    simp [GetFileHashMapping, hs]
  · intro hs
    simp [GetFileHashMapping, hs]
  · intro hs
    simp [GetFileHashMapping, hs]
  · intro hs
    simp [GetFileHashMapping, hs]
  · simp [SaveFileHashMapping]
  · simp [SaveFileHash, SaveFileHashMapping]
  · intro h2 hne
    simp [SaveFileHashMapping, hne]

/-- Witness for C7 on the concrete store mapping `"h1"` to the
structured record `(7, 4)`. -/
theorem C7_hash_store_format_witness :
    witnessHashStore "h1" = some (StoredValue.structuredV 7 4) ∧
    GetFileHashMapping witnessHashStore "h1" = Except.ok (some ⟨7, 4⟩) ∧
    SaveFileHash witnessHashStore "h2" 9 "h2" = some (StoredValue.structuredV 9 0) :=
  ⟨rfl,
    (C7_hash_store_format witnessHashStore "h1" "h2" 7 4).1 rfl,
    ((C7_hash_store_format witnessHashStore "h1" "h2" 9 0).2.2.2.2.2.1)⟩

/-! ### C6: dedup skip and idempotent commit -/

/-- Environment of the concrete C6 witness run: every step succeeds,
the path hashes to `"h"`, the server assigns file id 5. -/
def witnessUploadEnv : UploadEnv :=
  ⟨true, true, "h", true, true, true, true, true, 5, true⟩

/-- **C6.** With force unset, when the content hash is already present
in the deduplication store the pipeline returns a result marked skipped
carrying the existing file id, with no metadata extraction, thumbnail,
encryption, S3 upload, catalog commit, or store write; consequently
running the pipeline twice on the same path (hash initially absent,
every step succeeding, server-assigned id non-zero) commits the catalog
exactly once and the second run returns skipped with that id. -/
theorem C6_dedup_skip_idempotent (env : UploadEnv)
    (store : String → Option StoredValue) :
    (∀ existingID : ℤ, env.validateOk = true → env.hashOk = true →
      CheckLocalDuplicate store env.fileHash = Except.ok (existingID, true) →
      uploadFile env false store =
        (⟨false, true, existingID⟩, store,
          [UploadStep.validateStep, UploadStep.hashStep, UploadStep.dedupCheckStep])) ∧
    (env.validateOk = true → env.hashOk = true → env.metadataOk = true →
      env.thumbnailOk = true → env.encryptOk = true → env.s3Ok = true →
      env.commitOk = true → env.storeOk = true →
      store env.fileHash = none → env.assignedFileID ≠ 0 →
      uploadFileTwice env false store =
        (⟨true, false, env.assignedFileID⟩,
         ⟨false, true, env.assignedFileID⟩, 1)) := by
  constructor
  · intro existingID hv hh hdup
    simp [uploadFile, hv, hh, hdup]
  · intro hv hh hm ht he hs3 hc hst habsent hid
    have hdup1 : CheckLocalDuplicate store env.fileHash = Except.ok (0, false) := by
      simp [CheckLocalDuplicate, GetFileIDByHash, GetFileHashMapping, habsent]
    have hrun1 : uploadFile env false store =
        (⟨true, false, env.assignedFileID⟩,
         SaveFileHash store env.fileHash env.assignedFileID,
         [UploadStep.validateStep, UploadStep.hashStep, UploadStep.dedupCheckStep,
          UploadStep.metadataStep, UploadStep.thumbnailStep, UploadStep.encryptStep,
          UploadStep.s3UploadStep, UploadStep.commitStep, UploadStep.storeHashStep]) := by
      simp [uploadFile, hv, hh, hm, ht, he, hs3, hc, hst, hdup1]
    have hdup2 : CheckLocalDuplicate
        (SaveFileHash store env.fileHash env.assignedFileID) env.fileHash =
        Except.ok (env.assignedFileID, true) := by
      simp [CheckLocalDuplicate, GetFileIDByHash, GetFileHashMapping,
        SaveFileHash, SaveFileHashMapping, hid]
    have hrun2 : uploadFile env false
        (SaveFileHash store env.fileHash env.assignedFileID) =
        (⟨false, true, env.assignedFileID⟩,
         SaveFileHash store env.fileHash env.assignedFileID,
         [UploadStep.validateStep, UploadStep.hashStep, UploadStep.dedupCheckStep]) := by
      simp [uploadFile, hv, hh, hdup2]
    simp [uploadFileTwice, hrun1, hrun2, List.count_cons, List.count_nil]

/-- Witness for C6: hash absent, all steps succeed, server assigns
id 5 — two consecutive runs commit once and the second is skipped. -/
theorem C6_dedup_skip_idempotent_witness :
    uploadFileTwice witnessUploadEnv false (fun _ => none) =
      (⟨true, false, 5⟩, ⟨false, true, 5⟩, 1) :=
  (C6_dedup_skip_idempotent witnessUploadEnv (fun _ => none)).2
    rfl rfl rfl rfl rfl rfl rfl rfl rfl (by decide)

/-! ### C5: multipart upload -/

lemma multipartPartSize_pos : 0 < multipartPartSize := by
  norm_num [multipartPartSize]

lemma ceil_div_not_dvd_gen (b L : ℕ) (hb : 0 < b) (hL : 0 < L)
    (hmod : L % b ≠ 0) : (L + b - 1) / b = L / b + 1 := by
  have h1 : L + b - 1 = (L - 1) + b := by omega
  rw [h1, Nat.add_div_right _ hb]
  have hnd : ¬ b ∣ L := fun hd => hmod (Nat.mod_eq_zero_of_dvd hd)
  have h2 : (L - 1) + 1 = L := by omega
  have h3 : L / b = (L - 1) / b := by
    conv_lhs => rw [← h2]
    rw [Nat.succ_div, h2, if_neg hnd]
    omega
  rw [h3]

lemma ceil_div_dvd_gen (b L : ℕ) (hb : 0 < b) (hmod : L % b = 0) :
    (L + b - 1) / b = L / b := by
  rcases Nat.eq_zero_or_pos L with hL | hL
  · subst hL
    rw [Nat.zero_add, Nat.zero_div]
    exact Nat.div_eq_of_lt (by omega)
  · have h1 : L + b - 1 = (b - 1) + b * (L / b) := by
      have := Nat.div_add_mod L b
      omega
    rw [h1, Nat.add_mul_div_left _ _ hb, Nat.div_eq_of_lt (by omega : b - 1 < b)]
    omega

/-- Bounds pinning `partCount = ceil(L / partSize)`. -/
lemma partCount_bounds (L : ℕ) :
    L ≤ ((L + multipartPartSize - 1) / multipartPartSize) * multipartPartSize ∧
    ((L + multipartPartSize - 1) / multipartPartSize) * multipartPartSize <
      L + multipartPartSize := by
  have hps := multipartPartSize_pos
  have hdm := Nat.div_add_mod L multipartPartSize
  have hmlt : L % multipartPartSize < multipartPartSize := Nat.mod_lt _ hps
  by_cases hmod : L % multipartPartSize = 0
  · rw [ceil_div_dvd_gen _ _ hps hmod]
    have e1 : L / multipartPartSize * multipartPartSize =
        multipartPartSize * (L / multipartPartSize) := by ring
    omega
  · have hL : 0 < L := by
      rcases Nat.eq_zero_or_pos L with h | h
      · subst h
        simp at hmod
      · exact h
    rw [ceil_div_not_dvd_gen _ _ hps hL hmod]
    have e1 : (L / multipartPartSize + 1) * multipartPartSize =
        multipartPartSize * (L / multipartPartSize) + multipartPartSize := by ring
    omega

/-- Closed form of the `ComputePartMD5s` read loop: all parts are full
except a final short part of `L mod partSize` bytes when the size is
not an exact multiple. -/
lemma partSizesLoop_spec :
    ∀ (k L : ℕ), L ≤ k * multipartPartSize →
      k * multipartPartSize < L + multipartPartSize →
      partSizesLoop k L =
        List.replicate (L / multipartPartSize) multipartPartSize ++
          (if L % multipartPartSize = 0 then []
           else [L % multipartPartSize]) := by
  intro k
  induction k with
  | zero =>
    intro L h1 h2
    have hL : L = 0 := by omega
    subst hL
    simp [partSizesLoop]
  | succ k ih =>
    intro L h1 h2
    have hps := multipartPartSize_pos
    have hmul : (k + 1) * multipartPartSize =
        k * multipartPartSize + multipartPartSize := by ring
    have hkL : k * multipartPartSize < L := by omega
    have hL : 0 < L := by omega
    by_cases hlt : L < multipartPartSize
    · rcases Nat.eq_zero_or_pos k with hk | hk
      · subst hk
        have hdiv : L / multipartPartSize = 0 := Nat.div_eq_of_lt hlt
        have hmod : L % multipartPartSize = L := Nat.mod_eq_of_lt hlt
        have hmin : min L multipartPartSize = L := Nat.min_eq_left (le_of_lt hlt)
        have hsub : L - multipartPartSize = 0 := by omega
        have hstep : partSizesLoop (0 + 1) L =
            min L multipartPartSize :: partSizesLoop 0 (L - multipartPartSize) := rfl
        rw [hstep, hmin, hdiv, hmod, hsub]
        rw [if_neg (by omega : ¬ L = 0)]
        rfl
      · exfalso
        have hle := Nat.le_mul_of_pos_left multipartPartSize hk
        omega
    · have hge : multipartPartSize ≤ L := le_of_not_lt hlt
      have hmin : min L multipartPartSize = multipartPartSize := Nat.min_eq_right hge
      have hm : L - multipartPartSize + multipartPartSize = L := by omega
      have hrec := ih (L - multipartPartSize) (by omega) (by omega)
      have hdiv : L / multipartPartSize =
          (L - multipartPartSize) / multipartPartSize + 1 := by
        conv_lhs => rw [← hm]
        exact Nat.add_div_right _ hps
      have hmod : L % multipartPartSize =
          (L - multipartPartSize) % multipartPartSize := by
        conv_lhs => rw [← hm]
        exact Nat.add_mod_right _ _
      have hstep : partSizesLoop (k + 1) L =
          min L multipartPartSize :: partSizesLoop k (L - multipartPartSize) := rfl
      rw [hstep, hmin, hrec, hdiv, hmod, List.replicate_succ]
      exact (List.cons_append _ _ _).symm

/-- Closed form of `computePartSizes`. -/
lemma computePartSizes_spec (L : ℕ) :
    computePartSizes L =
      List.replicate (L / multipartPartSize) multipartPartSize ++
        (if L % multipartPartSize = 0 then [] else [L % multipartPartSize]) := by
  have hb := partCount_bounds L
  exact partSizesLoop_spec _ L hb.1 hb.2

/-- The part-upload loop succeeds with one ETag per URL when every part
response is 200 with a non-empty ETag and the URL count does not exceed
the number of non-empty reads. -/
lemma collectEtags_spec (f : ℕ → String) :
    ∀ (todo rem i : ℕ),
      (∀ j, j < todo → f (i + j) ≠ "") →
      todo * multipartPartSize < rem + multipartPartSize →
      collectEtags (fun x => some (f x)) todo rem i =
        Except.ok ((List.range todo).map (fun j => f (i + j))) := by
  intro todo
  induction todo with
  | zero =>
    intro rem i hf hlo
    simp [collectEtags]
  | succ k ih =>
    intro rem i hf hlo
    have hps := multipartPartSize_pos
    have hmul : (k + 1) * multipartPartSize =
        k * multipartPartSize + multipartPartSize := by ring
    have hkrem : k * multipartPartSize < rem := by omega
    have hrem : 0 < rem := by omega
    have hn : ¬ (min rem multipartPartSize = 0) := by
      simp only [Nat.min_eq_zero_iff]
      omega
    have hf0 : f (i + 0) ≠ "" := hf 0 (Nat.succ_pos k)
    have hlo2 : k * multipartPartSize < (rem - multipartPartSize) +
        multipartPartSize := by
      rcases Nat.eq_zero_or_pos k with hk | hk
      · subst hk
        simp
        omega
      · have := Nat.le_mul_of_pos_left multipartPartSize hk
        omega
    have hrec := ih (rem - multipartPartSize) (i + 1)
      (fun j hj => by
        have := hf (j + 1) (by omega)
        simpa [Nat.add_assoc, Nat.add_comm 1 j] using this)
      hlo2
    simp only [collectEtags, hn, if_false, Nat.add_zero] at hf0 ⊢
    rw [if_neg hf0, hrec]
    simp only [List.range_succ_eq_map, List.map_cons, List.map_map, Nat.add_zero]
    have hmap : List.map (fun j => f (i + 1 + j)) (List.range k) =
        List.map ((fun j => f (i + j)) ∘ Nat.succ) (List.range k) := by
      apply List.map_congr_left
      intro a _
      simp only [Function.comp_apply]
      congr 1
      omega
    rw [hmap]

/-- **C5.** The uploader chooses multipart exactly when the encrypted
size is at least 20 MiB; multipart uses fixed 20 MiB parts, so the part
count and the per-part MD5 count equal `ceil(size / 20 MiB)` with all
parts full except a possibly short last part; and when every part PUT
returns 200 with ETag `f i`, the completion XML lists 1-based
consecutive part numbers in upload order, each carrying that part's
returned ETag. -/
theorem C5_multipart_partlist (L : ℕ) (f : ℕ → String)
    (hL : DefaultMultipartMin ≤ L)
    (hf : ∀ i, i < (L + multipartPartSize - 1) / multipartPartSize → f i ≠ "") :
    chooseMultipart L = true ∧
    (∀ L2, L2 < DefaultMultipartMin → chooseMultipart L2 = false) ∧
    (computePartSizes L).length =
      (L + multipartPartSize - 1) / multipartPartSize ∧
    computePartSizes L =
      List.replicate (L / multipartPartSize) multipartPartSize ++
        (if L % multipartPartSize = 0 then [] else [L % multipartPartSize]) ∧
    uploadMultipartParts L ((L + multipartPartSize - 1) / multipartPartSize)
        (fun i => some (f i)) =
      Except.ok
        ((List.range ((L + multipartPartSize - 1) / multipartPartSize)).map
          (fun i => (i + 1, f i))) := by
  have hps := multipartPartSize_pos
  have hL0 : 0 < L := by
    have hd : 0 < DefaultMultipartMin := by norm_num [DefaultMultipartMin]
    omega
  have hspec := computePartSizes_spec L
  have hcount : (computePartSizes L).length =
      (L + multipartPartSize - 1) / multipartPartSize := by
    rw [hspec]
    by_cases hmod : L % multipartPartSize = 0
    · rw [ceil_div_dvd_gen _ _ hps hmod]
      simp [hmod]
    · rw [ceil_div_not_dvd_gen _ _ hps hL0 hmod]
      simp [hmod]
  refine ⟨by simp [chooseMultipart, hL], ?_, hcount, hspec, ?_⟩
  · intro L2 h2
    simp [chooseMultipart]
    omega
  · have hb := partCount_bounds L
    have hcol := collectEtags_spec f
      ((L + multipartPartSize - 1) / multipartPartSize) L 0
      (fun j hj => by simpa using hf j hj) hb.2
    rw [uploadMultipartParts, hcol]
    show Except.ok (List.map (fun q : ℕ × String => (q.1 + 1, q.2))
        ((List.range ((List.range ((L + multipartPartSize - 1) /
          multipartPartSize)).map (fun j => f (0 + j))).length).zip
          ((List.range ((L + multipartPartSize - 1) /
            multipartPartSize)).map (fun j => f (0 + j))))) =
      Except.ok ((List.range ((L + multipartPartSize - 1) /
        multipartPartSize)).map (fun i => (i + 1, f i)))
    have hlen : ((List.range ((L + multipartPartSize - 1) /
        multipartPartSize)).map (fun j => f (0 + j))).length =
        (L + multipartPartSize - 1) / multipartPartSize :=
      (List.length_map _ _).trans (List.length_range _)
    rw [hlen]
    have hzip : (List.range ((L + multipartPartSize - 1) /
        multipartPartSize)).zip
        ((List.range ((L + multipartPartSize - 1) /
          multipartPartSize)).map (fun j => f (0 + j))) =
        (List.range ((L + multipartPartSize - 1) / multipartPartSize)).map
          (fun a => (a, f (0 + a))) := by
      have hz := List.zip_map' (fun a : ℕ => a) (fun j => f (0 + j))
        (List.range ((L + multipartPartSize - 1) / multipartPartSize))
      rw [List.map_id'] at hz
      exact hz
    rw [hzip, List.map_map]
    have hfun : ((fun q : ℕ × String => (q.1 + 1, q.2)) ∘
        (fun a : ℕ => (a, f (0 + a)))) = (fun i : ℕ => (i + 1, f i)) := by
      funext a
      simp
    rw [hfun]

/-- Witness for C5 at a 25 MiB encrypted size with two parts. -/
theorem C5_multipart_partlist_witness :
    DefaultMultipartMin ≤ 26214400 ∧
    (chooseMultipart 26214400 = true ∧
    (∀ L2, L2 < DefaultMultipartMin → chooseMultipart L2 = false) ∧
    (computePartSizes 26214400).length =
      (26214400 + multipartPartSize - 1) / multipartPartSize ∧
    computePartSizes 26214400 =
      List.replicate (26214400 / multipartPartSize) multipartPartSize ++
        (if 26214400 % multipartPartSize = 0 then []
         else [26214400 % multipartPartSize]) ∧
    uploadMultipartParts 26214400
        ((26214400 + multipartPartSize - 1) / multipartPartSize)
        (fun i => some (if i = 0 then "E1" else "E2")) =
      Except.ok
        ((List.range ((26214400 + multipartPartSize - 1) /
          multipartPartSize)).map
          (fun i => (i + 1, if i = 0 then "E1" else "E2")))) :=
  ⟨by decide,
    C5_multipart_partlist 26214400 (fun i => if i = 0 then "E1" else "E2")
      (by decide) (by decide)⟩

/-! ### C8: album-name sanitization -/

lemma fieldsAux_map (p q : Char → Bool) (f : Char → Char)
    (hpf : ∀ c, p (f c) = q c) (hid : ∀ c, q c = false → f c = c) :
    ∀ (l : List Char) (cur : List Char),
      fieldsAux p cur (l.map f) = fieldsAux q cur l := by
  intro l
  induction l with
  | nil => intro cur; rfl
  | cons c rest ih =>
    intro cur
    simp only [List.map_cons, fieldsAux]
    rw [hpf c]
    cases hq : q c with
    | false =>
      simp only [Bool.false_eq_true, if_false]
      rw [hid c hq]
      exact ih (c :: cur)
    | true =>
      simp only [if_true]
      by_cases hcur : cur = []
      · simp only [hcur, if_pos rfl]
        exact ih []
      · rw [if_neg hcur, if_neg hcur, ih []]

lemma fieldsAux_all_sep (q : Char → Bool) :
    ∀ (l cur : List Char), (∀ c ∈ l, q c = true) →
      fieldsAux q cur l = if cur = [] then [] else [cur.reverse] := by
  intro l
  induction l with
  | nil => intro cur _; rfl
  | cons c rest ih =>
    intro cur hall
    have hc : q c = true := hall c (List.mem_cons_self c rest)
    have hrest : ∀ d ∈ rest, q d = true := fun d hd => hall d (List.mem_cons_of_mem c hd)
    simp only [fieldsAux, hc, if_true]
    by_cases hcur : cur = []
    · rw [if_pos hcur, if_pos hcur, ih [] hrest]
      rfl
    · rw [if_neg hcur, if_neg hcur, ih [] hrest]
      rfl

lemma fieldsAux_sep_prefix (q : Char → Bool) :
    ∀ (pre l : List Char), (∀ c ∈ pre, q c = true) →
      fieldsAux q [] (pre ++ l) = fieldsAux q [] l := by
  intro pre
  induction pre with
  | nil => intro l _; rfl
  | cons c rest ih =>
    intro l hall
    have hc : q c = true := hall c (List.mem_cons_self c rest)
    have hrest : ∀ d ∈ rest, q d = true := fun d hd => hall d (List.mem_cons_of_mem c hd)
    simp only [List.cons_append, fieldsAux, hc, if_true, if_pos rfl]
    exact ih l hrest

lemma fieldsAux_sep_suffix (q : Char → Bool) :
    ∀ (l suf : List Char) (cur : List Char), (∀ c ∈ suf, q c = true) →
      fieldsAux q cur (l ++ suf) = fieldsAux q cur l := by
  intro l
  induction l with
  | nil =>
    intro suf cur hall
    rw [List.nil_append]
    exact fieldsAux_all_sep q suf cur hall
  | cons c rest ih =>
    intro suf cur hall
    simp only [List.cons_append, fieldsAux]
    cases hc : q c with
    | false =>
      simp only [Bool.false_eq_true, if_false]
      exact ih suf (c :: cur) hall
    | true =>
      simp only [if_true]
      by_cases hcur : cur = []
      · rw [if_pos hcur, if_pos hcur]
        exact ih suf [] hall
      · rw [if_neg hcur, if_neg hcur]
        exact congrArg (List.cons cur.reverse) (ih suf [] hall)

lemma fieldsBy_trimSpace (q : Char → Bool)
    (hq : ∀ c, isSpaceChar c = true → q c = true) (l : List Char) :
    fieldsBy q (trimSpace l) = fieldsBy q l := by
  have hstep1 : fieldsBy q l = fieldsBy q (l.dropWhile isSpaceChar) := by
    conv_lhs => rw [← List.takeWhile_append_dropWhile (p := isSpaceChar) (l := l)]
    exact fieldsAux_sep_prefix q _ _
      (fun c hc => hq c (List.mem_takeWhile_imp hc))
  have hstep2 : fieldsBy q (l.dropWhile isSpaceChar) =
      fieldsBy q (((l.dropWhile isSpaceChar).reverse.dropWhile isSpaceChar).reverse) := by
    set m := l.dropWhile isSpaceChar with hm
    have hsplit : m = (m.reverse.dropWhile isSpaceChar).reverse ++
        (m.reverse.takeWhile isSpaceChar).reverse := by
      conv_lhs => rw [← List.reverse_reverse m,
        ← List.takeWhile_append_dropWhile (p := isSpaceChar) (l := m.reverse)]
      rw [List.reverse_append]
    conv_lhs => rw [hsplit]
    exact fieldsAux_sep_suffix q _ _ []
      (fun c hc => hq c (List.mem_takeWhile_imp (List.mem_reverse.mp hc)))
  rw [hstep1, hstep2]
  rfl

lemma nil_not_mem_fieldsAux (q : Char → Bool) :
    ∀ (l cur : List Char), [] ∉ fieldsAux q cur l := by
  intro l
  induction l with
  | nil =>
    intro cur
    by_cases hcur : cur = []
    · simp [fieldsAux, hcur]
    · simp [fieldsAux, hcur]
  | cons c rest ih =>
    intro cur
    simp only [fieldsAux]
    cases hc : q c with
    | false =>
      simp only [Bool.false_eq_true, if_false]
      exact ih (c :: cur)
    | true =>
      simp only [if_true]
      by_cases hcur : cur = []
      · rw [if_pos hcur]
        exact ih []
      · rw [if_neg hcur]
        intro hmem
        rcases List.mem_cons.mp hmem with h | h
        · exact hcur (by simpa using h.symm)
        · exact ih [] h

lemma joinFields_eq_nil_iff (ts : List (List Char)) (hne : [] ∉ ts) :
    joinFields ts = [] ↔ ts = [] := by
  cases ts with
  | nil => simp [joinFields]
  | cons t rest =>
    have ht : t ≠ [] := fun h => hne (by simp [h])
    constructor
    · intro hjoin
      exfalso
      cases rest with
      | nil =>
        exact ht (by simp only [joinFields] at hjoin; exact hjoin)
      | cons u rest2 =>
        have : t ++ ' ' :: joinFields (u :: rest2) = [] := by
          simp only [joinFields] at hjoin
          exact hjoin
        rcases List.append_eq_nil.mp this with ⟨h1, h2⟩
        exact List.noConfusion h2
    · intro h
      exact absurd h (by simp)

/-- The source sanitizer equals the spec-worded sanitizer on every
input string. -/
lemma sanitizeAlbumName_refines (l : List Char) :
    SanitizeAlbumName l = sanitizeSpecWords l := by
  have hws : ∀ c, isSpaceChar c = true → (isSpaceChar c || isSepChar c) = true := by
    intro c h
    simp [h]
  have h1 : fieldsBy isSpaceChar (replaceSeps (trimSpace l)) =
      fieldsBy (fun c => isSpaceChar c || isSepChar c) (trimSpace l) := by
    simp only [replaceSeps, fieldsBy]
    apply fieldsAux_map
    · intro c
      cases hs : isSepChar c with
      | true =>
        rw [if_pos rfl]
        have hsp : isSpaceChar ' ' = true := by decide
        rw [hsp, Bool.or_true]
      | false =>
        rw [if_neg (by simp), Bool.or_false]
    · intro c hq
      have hs : isSepChar c = false := by
        cases hs : isSepChar c with
        | false => rfl
        | true =>
          rw [hs, Bool.or_true] at hq
          exact absurd hq (by simp)
      rw [if_neg (by simp [hs])]
  have htokens : fieldsBy isSpaceChar (replaceSeps (trimSpace l)) =
      fieldsBy (fun c => isSpaceChar c || isSepChar c) l := by
    rw [h1]
    exact fieldsBy_trimSpace _ hws l
  simp only [SanitizeAlbumName, sanitizeSpecWords, htokens]
  by_cases hT : fieldsBy (fun c => isSpaceChar c || isSepChar c) l = []
  · rw [hT]
    rfl
  · have hmem : [] ∉ fieldsBy (fun c => isSpaceChar c || isSepChar c) l :=
      nil_not_mem_fieldsAux _ l []
    have hjoin : joinFields (fieldsBy (fun c => isSpaceChar c || isSepChar c) l) ≠ [] :=
      fun h => hT ((joinFields_eq_nil_iff _ hmem).mp h)
    rw [if_neg hjoin, if_neg hT]

/-- **C8.** In Folder-as-Album mode the resolved album name for a file
directly under the watch root is the default album; for any other file
it is the `filepath.Dir` of the root-relative path sanitized exactly as
the spec words it (trim, collapse path separators and whitespace runs to
single spaces, default name for an empty result) — the source sanitizer
coincides with the spec-worded sanitizer on every string — and dropping
`/W/Trip  2024/a.jpg` (two spaces) yields the album `"Trip 2024"`. -/
theorem C8_folder_album_name :
    (∀ comps : List (List Char), comps = [] →
      processFileFolderAlbumsMode comps = defaultAlbumChars) ∧
    (∀ dirName : List Char, SanitizeAlbumName dirName = sanitizeSpecWords dirName) ∧
    (∀ comps : List (List Char), comps ≠ [] → joinWithSlash comps ≠ ['.'] →
      processFileFolderAlbumsMode comps = sanitizeSpecWords (joinWithSlash comps)) ∧
    processFileFolderAlbumsMode ["Trip  2024".toList] = "Trip 2024".toList := by
  refine ⟨?_, sanitizeAlbumName_refines, ?_, ?_⟩
  · intro comps hc
    subst hc
    rfl
  · intro comps hne hdot
    simp only [processFileFolderAlbumsMode, if_neg hne]
    by_cases hnil : joinWithSlash comps = []
    · rw [if_neg (by simp [hnil])]
      rw [hnil]
      rfl
    · rw [if_pos ⟨hdot, hnil⟩]
      exact sanitizeAlbumName_refines _
  · decide

/-- Witness for C8 at the concrete nested directory `a/b`. -/
theorem C8_folder_album_name_witness :
    ("a".toList ≠ ([] : List Char) → True) ∧
    processFileFolderAlbumsMode ["a".toList, "b".toList] =
      sanitizeSpecWords (joinWithSlash ["a".toList, "b".toList]) :=
  ⟨fun _ => trivial,
    (C8_folder_album_name.2.2.1) ["a".toList, "b".toList]
      (by decide) (by decide)⟩

/-- Invariant of the debouncer on a run of `Add` events for one path:
if each event arrives after the previous one but before its timer
would fire, the state keeps exactly one pending timer for that path,
rescheduled to the latest event's time plus `D`, and nothing fires. -/
lemma debounce_adds (D : ℕ) (p : String) :
    ∀ (ts : List ℕ) (t0 : ℕ) (out : List (String × ℕ)),
      List.Chain' (fun a b : ℕ => a < b ∧ b < a + D) (t0 :: ts) →
      (ts.map (DebounceEvent.addEvent p)).foldl (debounceStep D)
        ([(p, t0 + D)], out) = ([(p, lastTime t0 ts + D)], out) := by
  intro ts
  induction ts with
  | nil =>
    intro t0 out _
    rfl
  | cons t1 rest ih =>
    intro t0 out hch
    have h01 : t0 < t1 ∧ t1 < t0 + D := List.chain'_cons.mp hch |>.1
    have hch1 : List.Chain' (fun a b : ℕ => a < b ∧ b < a + D) (t1 :: rest) :=
      List.chain'_cons.mp hch |>.2
    rw [List.map_cons, List.foldl_cons]
    have hnf : ¬ (t0 + D < t1) := by omega
    have hstep : debounceStep D ([(p, t0 + D)], out) (DebounceEvent.addEvent p t1)
        = ([(p, t1 + D)], out) := by
      simp [debounceStep, hnf]
    rw [hstep]
    exact ih t1 out hch1

/-- **C9.** If `k ≥ 1` events for one path reach the debounce queue so
that each arrives strictly after the previous one yet before the
previous one's timer of duration `D` would fire, the run dispatches
that path exactly once, at the last event's time plus `D`; and if a
`Stop` arrives before that timer fires, no dispatch happens at all. -/
theorem C9_debounce_single_dispatch :
    (∀ (D : ℕ) (p : String) (t0 : ℕ) (ts : List ℕ),
      List.Chain' (fun a b : ℕ => a < b ∧ b < a + D) (t0 :: ts) →
      debounceRun D ((t0 :: ts).map (DebounceEvent.addEvent p)) =
        [(p, lastTime t0 ts + D)]) ∧
    (∀ (D : ℕ) (p : String) (t0 : ℕ) (ts : List ℕ) (tstop : ℕ),
      List.Chain' (fun a b : ℕ => a < b ∧ b < a + D) (t0 :: ts) →
      tstop ≤ lastTime t0 ts + D →
      debounceRun D ((t0 :: ts).map (DebounceEvent.addEvent p) ++
        [DebounceEvent.stopEvent tstop]) = []) := by
  have hfold : ∀ (D : ℕ) (p : String) (t0 : ℕ) (ts : List ℕ),
      List.Chain' (fun a b : ℕ => a < b ∧ b < a + D) (t0 :: ts) →
      ((t0 :: ts).map (DebounceEvent.addEvent p)).foldl (debounceStep D) ([], []) =
        ([(p, lastTime t0 ts + D)], []) := by
    intro D p t0 ts hch
    rw [List.map_cons, List.foldl_cons]
    have hfirst : debounceStep D (([] : List (String × ℕ)), ([] : List (String × ℕ)))
        (DebounceEvent.addEvent p t0) = ([(p, t0 + D)], []) := rfl
    rw [hfirst]
    exact debounce_adds D p ts t0 [] hch
  constructor
  · intro D p t0 ts hch
    show (((t0 :: ts).map (DebounceEvent.addEvent p)).foldl (debounceStep D) ([], [])).2 ++
        (((t0 :: ts).map (DebounceEvent.addEvent p)).foldl (debounceStep D) ([], [])).1 =
        [(p, lastTime t0 ts + D)]
    rw [hfold D p t0 ts hch]
    rfl
  · intro D p t0 ts tstop hch hts
    show ((((t0 :: ts).map (DebounceEvent.addEvent p) ++ [DebounceEvent.stopEvent tstop]).foldl
        (debounceStep D) ([], [])).2 ++
      (((t0 :: ts).map (DebounceEvent.addEvent p) ++ [DebounceEvent.stopEvent tstop]).foldl
        (debounceStep D) ([], [])).1) = []
    rw [List.foldl_append, hfold D p t0 ts hch, List.foldl_cons, List.foldl_nil]
    have hnf : ¬ (lastTime t0 ts + D < tstop) := by omega
    have hstop : debounceStep D ([(p, lastTime t0 ts + D)], [])
        (DebounceEvent.stopEvent tstop) = ([], []) := by
      simp [debounceStep, hnf]
    rw [hstop]
    rfl

/-- Witness for C9: three events for one path at 0, 100 and 4000 with
`D = 5000` dispatch once at 9000; a Stop at 9000 cancels it. -/
theorem C9_debounce_single_dispatch_witness :
    debounceRun 5000 ([0, 100, 4000].map (DebounceEvent.addEvent "a")) =
      [("a", 9000)] ∧
    debounceRun 5000 ([0, 100, 4000].map (DebounceEvent.addEvent "a") ++
      [DebounceEvent.stopEvent 9000]) = [] :=
  ⟨C9_debounce_single_dispatch.1 5000 "a" 0 [100, 4000]
      (by simp [List.chain'_cons]),
   C9_debounce_single_dispatch.2 5000 "a" 0 [100, 4000] 9000
      (by simp [List.chain'_cons]) (by decide)⟩

end Ente
